import Mathlib

/-!
Verification of the ESP32 BLE Debugger Lite core
(src/esp32_ble_debugger_Lite.cpp / .h), as a shallow embedding.

Modelling conventions:
* The global pin vector becomes an explicit `List DebugPin` threaded through
  each operation; mutation becomes a function returning the new list.
* C pointers (`float (*)()` getters, `const volatile float*` probes) become
  `Option Nat` handles; dereferencing them is delegated to an `Env` record of
  collaborator functions (hardware reads, getter results, pointed-to floats),
  matching the source's treatment of hardware and callbacks as collaborators.
* C floats are modelled as `Rat`; the NAN sentinel used by `jsonAddPin`
  becomes `Option Rat` (`none` = NAN).  Binary-float rounding artifacts of
  the `%.3f` round-trip for virtual pins are modelled as exact decimal
  rounding; no claim depends on that branch.
* The build target is the default ESP32 (`DBG_TARGET_S3` = 0), so
  `SAFE_PINS`, `isRealGpio` and `isDacPin` take the `#else` branches.
* `measureJson` is additive in the serialized entries: the measured size of a
  document with header fields and entries e1..ek is a header constant plus
  the sum of per-entry costs (entry bytes plus separator).  The embedding
  takes the per-entry cost `esize : DebugPin → Nat` and the header constant
  `hdr` as parameters, which covers every concrete serialization.
* `sendPkt`'s two nested while loops become structural recursion; the outer
  loop gets a fuel argument and reports, besides the emitted frames, whether
  the loop exited (`true`) or only the fuel ran out (`false`).
-/

namespace ESP32Dbg

/-- DebugPin mirrors `struct DebugPin` in the header: pin number, config and
direction strings, an optional getter callback (handle), a cached value with
its validity flag, and an optional float-pointer probe with its flag. -/
structure DebugPin where
  num : Nat
  cfg : String
  dir : String
  getter : Option Nat
  cur : Rat
  hasCur : Bool
  ptr : Option Nat
  hasPtr : Bool
deriving DecidableEq, Repr

/-- SAFE_PINS for the default ESP32 target (the `#else` branch). -/
def SAFE_PINS : List Nat := [2, 12, 13, 14, 15, 36, 39, 34, 35, 32, 33]

/-- isRealGpio for the default ESP32 target. -/
def isRealGpio (n : Nat) : Bool := n ≤ 39

/-- isDacPin for the default ESP32 target. -/
def isDacPin (n : Nat) : Bool := n = 25 ∨ n = 26

/-- BLE_CHUNK_LIMIT from the header. -/
def BLE_CHUNK_LIMIT : Nat := 240

/-- ESP_LIVE_DBG_RATE_MIN from the header. -/
def ESP_LIVE_DBG_RATE_MIN : Nat := 50

/-- ESP_LIVE_DBG_RATE_MAX from the header. -/
def ESP_LIVE_DBG_RATE_MAX : Nat := 60000

/-- findPin: first pin whose `num` matches, `none` when absent. -/
def findPin (n : Nat) (ps : List DebugPin) : Option DebugPin :=
  ps.find? (fun p => p.num = n)

/-- esp32_ble_debugger_register_pin: update the first pin with this number
in place (config and direction only when the supplied string is non-empty,
the getter always), or append a fresh entry
`{ n, cfg, dir, getter, 0.0f, false, nullptr, false }`. -/
def esp32_ble_debugger_register_pin (n : Nat) (cfg dir : String)
    (getter : Option Nat) : List DebugPin → List DebugPin
  | [] => [{ num := n, cfg := cfg, dir := dir, getter := getter,
             cur := 0, hasCur := false, ptr := none, hasPtr := false }]
  | p :: rest =>
    if p.num = n then
      { p with cfg := if cfg.length ≠ 0 then cfg else p.cfg,
               dir := if dir.length ≠ 0 then dir else p.dir,
               getter := getter } :: rest
    else
      p :: esp32_ble_debugger_register_pin n cfg dir getter rest

/-- Pin id actually used by esp32_ble_debugger_probe_impl: the uint16 `n` is
raised to 100 when below 100, then cast to uint8 (mod 256) at the
`findPin((uint8_t)n)` call and the `push_back`. -/
def probeTargetId (n : Nat) : Nat := (if n < 100 then 100 else n) % 256

/-- Update-or-append step of esp32_ble_debugger_probe_impl: the first pin
with number `id` gets `cfg = "VIRTUAL"`, `dir = varName`, `ptr = pvar`,
`hasPtr = true`; when absent a fresh entry with those fields is appended. -/
def probeUpd (id : Nat) (pvar : Nat) (varName : String) :
    List DebugPin → List DebugPin
  | [] => [{ num := id, cfg := "VIRTUAL", dir := varName, getter := none,
             cur := 0, hasCur := false, ptr := some pvar, hasPtr := true }]
  | p :: rest =>
    if p.num = id then
      { p with cfg := "VIRTUAL", dir := varName,
               ptr := some pvar, hasPtr := true } :: rest
    else
      p :: probeUpd id pvar varName rest

/-- esp32_ble_debugger_probe_impl: floor-raise then uint8 cast, then
update-or-append. -/
def esp32_ble_debugger_probe_impl (n : Nat) (pvar : Nat) (varName : String)
    (ps : List DebugPin) : List DebugPin :=
  probeUpd (probeTargetId n) pvar varName ps

/-- Placeholder entry pushed by registerSafePins:
`{ n, "-", "-", nullptr, 0.0f, false, nullptr, false }`. -/
def placeholderPin (n : Nat) : DebugPin :=
  { num := n, cfg := "-", dir := "-", getter := none,
    cur := 0, hasCur := false, ptr := none, hasPtr := false }

/-- One iteration of the registerSafePins loop: append a placeholder when
the pin number is not yet registered. -/
def seedStep (acc : List DebugPin) (n : Nat) : List DebugPin :=
  if (findPin n acc).isSome then acc else acc ++ [placeholderPin n]

/-- registerSafePins: walk SAFE_PINS, appending a placeholder for every
number not already present. -/
def registerSafePins (ps : List DebugPin) : List DebugPin :=
  SAFE_PINS.foldl seedStep ps

/-- Number of registered pins carrying a given pin number. -/
def countId (n : Nat) (ps : List DebugPin) : Nat :=
  (ps.filter (fun p => p.num = n)).length

/-- Collaborator environment consumed by the value resolver: results of
getter callbacks, values behind probe pointers, and the hardware digital and
analog reads. -/
structure Env where
  getterVal : Nat → Rat
  ptrVal : Nat → Rat
  digitalRead : Nat → Bool
  analogRead : Nat → Nat

/-- Injected value of jsonAddPin (lines 128-131 of the source): getter
callback first, then a valid probe pointer, then the cached value; `none`
models the NAN sentinel. -/
def injectedValue (env : Env) (p : DebugPin) : Option Rat :=
  match p.getter with
  | some g => some (env.getterVal g)
  | none =>
    match p.hasPtr, p.ptr with
    | true, some a => some (env.ptrVal a)
    | _, _ => if p.hasCur then some p.cur else none

/-- C float-to-int cast: truncation toward zero. -/
def truncTowardZero (q : Rat) : Int :=
  if 0 ≤ q then q.floor else -((-q).floor)

/-- Decimal model of the `%.3f` snprintf / atof round-trip applied to
virtual pin values: rounding to the nearest thousandth. -/
def roundTo3 (q : Rat) : Rat := (round (q * 1000) : Int) / 1000

/-- Serialized JSON object for one pin.  `voltage = none` models the
string value `"-"`; `digital` and `analog` are present exactly on the
branches that set them. -/
structure PinJson where
  num : Nat
  config : String
  direction : String
  src : String
  value : Rat
  voltage : Option Rat
  digital : Option Nat
  analog : Option Int
deriving DecidableEq, Repr

/-- jsonAddPin: serialize one pin.  Virtual pins report the rounded injected
value and no voltage; non-analog physical pins coerce to 0/1 with a fixed
3.3/0.0 voltage; analog physical pins truncate the injected value, rescale
by 16 on an output DAC line when the value is in 0..255, clamp to 0..4095,
and report the proportional voltage. -/
def jsonAddPin (env : Env) (p : DebugPin) : PinJson :=
  let is_virtual_pin := p.cfg = "VIRTUAL"
  let srcStr : String :=
    if is_virtual_pin then "virtual" else if isDacPin p.num then "dac" else "hw"
  let injected := injectedValue env p
  if is_virtual_pin then
    let v : Rat := match injected with | some x => x | none => 0
    { num := p.num, config := "VIRTUAL", direction := p.dir, src := srcStr,
      value := roundTo3 v, voltage := none, digital := none, analog := none }
  else
    let analogCfg := p.cfg = "ANALOG"
    let dout := p.dir = "OUT"
    let dacPin := analogCfg ∧ dout ∧ isDacPin p.num
    if ¬ analogCfg then
      let d : Nat :=
        match injected with
        | some v => if v ≠ 0 then 1 else 0
        | none => if env.digitalRead p.num then 1 else 0
      { num := p.num, config := p.cfg, direction := p.dir, src := srcStr,
        value := (d : Rat), voltage := some (if d ≠ 0 then (33 : Rat)/10 else 0),
        digital := some d, analog := none }
    else
      let a : Int :=
        match injected with
        | some v =>
          let a0 := truncTowardZero v
          let a1 := if dacPin ∧ 0 ≤ a0 ∧ a0 ≤ 255 then a0 * 16 else a0
          let a2 := if a1 < 0 then 0 else a1
          if 4095 < a2 then 4095 else a2
        | none => (env.analogRead p.num : Int)
      { num := p.num, config := p.cfg, direction := p.dir, src := srcStr,
        value := (a : Rat), voltage := some ((33 : Rat)/10 * (a : Rat) / 4095),
        digital := none, analog := some a }

/-- set_rate_clamped: clamp the requested interval into
[ESP_LIVE_DBG_RATE_MIN, ESP_LIVE_DBG_RATE_MAX] and return the new
`dbg_int`. -/
def set_rate_clamped (ms : Nat) : Nat :=
  let ms1 := if ms < ESP_LIVE_DBG_RATE_MIN then ESP_LIVE_DBG_RATE_MIN else ms
  if ESP_LIVE_DBG_RATE_MAX < ms1 then ESP_LIVE_DBG_RATE_MAX else ms1

/-- The `dbg_int = ms` assignment of esp32_ble_debugger_begin: the initial
interval is stored without clamping. -/
def esp32_ble_debugger_begin_rate (ms : Nat) : Nat := ms

/-- C isspace over the ASCII range, as used on the control channel bytes. -/
def isspaceChar (c : Char) : Bool :=
  c = ' ' ∨ c = '\t' ∨ c = '\n' ∨ c = '\x0b' ∨ c = '\x0c' ∨ c = '\r'

/-- Digit run to number, for the atoi model. -/
def digitsVal (cs : List Char) : Nat :=
  cs.foldl (fun a c => a * 10 + (c.toNat - 48)) 0

/-- atoi on the fast path of CtrlCB::onWrite: the branch guard guarantees
the bytes are decimal digits and whitespace only, where atoi skips leading
whitespace and converts the leading digit run (sign handling is
unreachable under the guard). -/
def atoiModel (s : String) : Nat :=
  digitsVal ((s.toList.dropWhile isspaceChar).takeWhile Char.isDigit)

/-- Result of deserializeJson as far as CtrlCB::onWrite consumes it: whether
the body parsed at all, and the integer `rate` and `dbg_int` members when
present.  The JSON library is a collaborator, so the parser itself is a
parameter of the handler model. -/
structure JDoc where
  rate : Option Int
  dbgInt : Option Int
deriving DecidableEq, Repr

/-- Cast of `as<int>()` to uint32_t. -/
def toUInt32Nat (x : Int) : Nat := (x % 4294967296).toNat

/-- CtrlCB::onWrite: empty input is ignored; input that is all digits and
whitespace is atoi-parsed and, when nonzero, clamped and stored; anything
else goes through the JSON collaborator `jparse`, and a successful parse
applies `rate` and then `dbg_int` when present.  The function returns the
new `dbg_int` value (the handler surfaces no error). -/
def CtrlCB_onWrite (jparse : String → Option JDoc) (s : String) (dbg : Nat) : Nat :=
  if s.length = 0 then dbg
  else if s.toList.all (fun c => c.isDigit || isspaceChar c) then
    if atoiModel s ≠ 0 then set_rate_clamped (atoiModel s) else dbg
  else
    match jparse s with
    | none => dbg
    | some d =>
      let r1 := match d.rate with
        | some v => set_rate_clamped (toUInt32Nat v)
        | none => dbg
      match d.dbgInt with
      | some v => set_rate_clamped (toUInt32Nat v)
      | none => r1

/-- One emitted BLE notification of sendPkt: its sequence number, its
`last` flag, and the pins its `pins` array serialized. -/
structure Frame where
  seq : Nat
  last : Bool
  pinsF : List DebugPin
deriving DecidableEq, Repr

/-- Measured size of a packet document holding a list of pin entries:
header constant plus per-entry costs (additive model of measureJson). -/
def docMeasure (esize : DebugPin → Nat) (hdr : Nat) (ps : List DebugPin) : Nat :=
  hdr + (ps.map esize).sum

/-- Inner while loop of sendPkt: starting from measured size `m`, append
entries from the cursor; as soon as the measured size reaches the limit the
entry just appended is removed and the cursor rewound.  Returns the entries
kept in the frame and the remaining pins at the cursor. -/
def fillFrame (esize : DebugPin → Nat) (limit : Nat) :
    Nat → List DebugPin → List DebugPin × List DebugPin
  | _, [] => ([], [])
  | m, p :: rest =>
    if limit ≤ m + esize p then ([], p :: rest)
    else
      let r := fillFrame esize limit (m + esize p) rest
      (p :: r.1, r.2)

/-- Outer while loop of sendPkt, with fuel counting loop iterations.  The
boolean is true when the loop exited (cursor reached the end), false when
the fuel ran out first; the frame list holds the notifications emitted so
far, in emission order. -/
def sendPktLoop (esize : DebugPin → Nat) (hdr limit : Nat) :
    Nat → Nat → List DebugPin → List Frame × Bool
  | _, _, [] => ([], true)
  | 0, _, _ :: _ => ([], false)
  | fuel + 1, seq, p :: rest =>
    let fr := fillFrame esize limit hdr (p :: rest)
    let tail := sendPktLoop esize hdr limit fuel (seq + 1) fr.2
    ({ seq := seq, last := fr.2.isEmpty, pinsF := fr.1 } :: tail.1, tail.2)

/-- sendPkt: the whole invocation, sequence numbers from zero. -/
def sendPkt (esize : DebugPin → Nat) (hdr limit fuel : Nat)
    (ps : List DebugPin) : List Frame × Bool :=
  sendPktLoop esize hdr limit fuel 0 ps

/-- A sendPkt invocation diverges: however much fuel the outer loop is
given, it never exits. -/
def sendPktDiverges (esize : DebugPin → Nat) (hdr limit : Nat)
    (ps : List DebugPin) : Prop :=
  ∀ fuel, (sendPkt esize hdr limit fuel ps).2 = false

/-- Environment whose probe pointers all hold 5; used to exhibit which
source governs a read. -/
def envPtr : Env :=
  { getterVal := fun _ => 0, ptrVal := fun _ => 5,
    digitalRead := fun _ => false, analogRead := fun _ => 0 }

/-- All-zero collaborator environment. -/
def envZero : Env :=
  { getterVal := fun _ => 0, ptrVal := fun _ => 0,
    digitalRead := fun _ => false, analogRead := fun _ => 0 }

/-! ## Registry lemmas -/

theorem findPin_append_isSome (n : Nat) {l : List DebugPin} (t : List DebugPin)
    (h : (findPin n l).isSome) : (findPin n (l ++ t)).isSome := by
  unfold findPin at *
  rw [List.find?_append]
  cases hf : l.find? (fun p => decide (p.num = n)) with
  | none => rw [hf] at h; simp at h
  | some p => simp [hf]

theorem seedStep_isSome_mono {n : Nat} {acc : List DebugPin} (m : Nat)
    (h : (findPin n acc).isSome) : (findPin n (seedStep acc m)).isSome := by
  unfold seedStep
  split
  · exact h
  · exact findPin_append_isSome n _ h

theorem foldl_seed_isSome_mono (l : List Nat) {n : Nat} {acc : List DebugPin}
    (h : (findPin n acc).isSome) : (findPin n (l.foldl seedStep acc)).isSome := by
  induction l generalizing acc with
  | nil => exact h
  | cons m t ih => exact ih (seedStep_isSome_mono m h)

theorem seedStep_self (n : Nat) (acc : List DebugPin) :
    (findPin n (seedStep acc n)).isSome := by
  unfold seedStep
  split
  · assumption
  · next h =>
    unfold findPin
    rw [List.find?_append]
    have hnone : findPin n acc = none := by
      cases hf : findPin n acc with
      | none => rfl
      | some p => rw [hf] at h; simp at h
    unfold findPin at hnone
    rw [hnone]
    simp [placeholderPin]

theorem foldl_seed_all_present (l : List Nat) (acc : List DebugPin) :
    ∀ n ∈ l, (findPin n (l.foldl seedStep acc)).isSome := by
  induction l generalizing acc with
  | nil => intro n h; cases h
  | cons m t ih =>
    intro n h
    rw [List.foldl_cons]
    rcases List.mem_cons.mp h with h | h
    · subst h
      exact foldl_seed_isSome_mono t (seedStep_self n acc)
    · exact ih (seedStep acc m) n h

theorem foldl_seed_id (l : List Nat) (acc : List DebugPin)
    (h : ∀ n ∈ l, (findPin n acc).isSome) : l.foldl seedStep acc = acc := by
  induction l with
  | nil => rfl
  | cons m t ih =>
    rw [List.foldl_cons]
    have hm : seedStep acc m = acc := by
      unfold seedStep
      rw [if_pos (h m (List.mem_cons_self m t))]
    rw [hm]
    exact ih (fun n hn => h n (List.mem_cons_of_mem m hn))

theorem seedStep_append (acc : List DebugPin) (m : Nat) :
    ∃ s, seedStep acc m = acc ++ s := by
  unfold seedStep
  split
  · exact ⟨[], (List.append_nil acc).symm⟩
  · exact ⟨[placeholderPin m], rfl⟩

theorem foldl_seed_append (l : List Nat) (acc : List DebugPin) :
    ∃ t, l.foldl seedStep acc = acc ++ t := by
  induction l generalizing acc with
  | nil => exact ⟨[], (List.append_nil acc).symm⟩
  | cons m tl ih =>
    rw [List.foldl_cons]
    rcases seedStep_append acc m with ⟨s, hs⟩
    rcases ih (seedStep acc m) with ⟨t, ht⟩
    exact ⟨s ++ t, by rw [ht, hs, List.append_assoc]⟩

theorem findPin_probeUpd (id pvar : Nat) (s : String) (ps : List DebugPin) :
    ∃ p, findPin id (probeUpd id pvar s ps) = some p ∧
      p.num = id ∧ p.cfg = "VIRTUAL" ∧ p.dir = s ∧
      p.ptr = some pvar ∧ p.hasPtr = true := by
  induction ps with
  | nil =>
    refine ⟨{ num := id, cfg := "VIRTUAL", dir := s, getter := none,
              cur := 0, hasCur := false, ptr := some pvar, hasPtr := true },
            ?_, rfl, rfl, rfl, rfl, rfl⟩
    unfold probeUpd findPin
    exact List.find?_cons_of_pos _ (by simp)
  | cons q rest ih =>
    unfold probeUpd
    by_cases h : q.num = id
    · rw [if_pos h]
      refine ⟨{ q with cfg := "VIRTUAL", dir := s, ptr := some pvar, hasPtr := true },
              ?_, h, rfl, rfl, rfl, rfl⟩
      unfold findPin
      exact List.find?_cons_of_pos _ (by simp [h])
    · rw [if_neg h]
      rcases ih with ⟨p, hp, hnum, hcfg, hdir, hptr, hhas⟩
      refine ⟨p, ?_, hnum, hcfg, hdir, hptr, hhas⟩
      unfold findPin at hp ⊢
      rw [List.find?_cons_of_neg _ (by simp [h])]
      exact hp

theorem register_pin_insert (n : Nat) (cfg dir : String) (g : Option Nat)
    (ps : List DebugPin) (h : findPin n ps = none) :
    esp32_ble_debugger_register_pin n cfg dir g ps
      = ps ++ [{ num := n, cfg := cfg, dir := dir, getter := g,
                 cur := 0, hasCur := false, ptr := none, hasPtr := false }] := by
  induction ps with
  | nil => rfl
  | cons q rest ih =>
    unfold findPin at h
    have hq : ¬ q.num = n := by
      intro hc
      rw [List.find?_cons_of_pos _ (by simp [hc])] at h
      exact Option.noConfusion h
    rw [List.find?_cons_of_neg _ (by simp [hq])] at h
    unfold esp32_ble_debugger_register_pin
    rw [if_neg hq, ih h]
    rfl

theorem register_pin_update (n : Nat) (cfg dir : String) (g : Option Nat)
    (ps : List DebugPin) (p : DebugPin) (h : findPin n ps = some p) :
    findPin n (esp32_ble_debugger_register_pin n cfg dir g ps)
      = some { p with cfg := if cfg.length ≠ 0 then cfg else p.cfg,
                      dir := if dir.length ≠ 0 then dir else p.dir,
                      getter := g } := by
  induction ps with
  | nil => exact Option.noConfusion h
  | cons q rest ih =>
    by_cases hq : q.num = n
    · unfold findPin at h
      rw [List.find?_cons_of_pos _ (by simp [hq])] at h
      injection h with h
      subst h
      unfold esp32_ble_debugger_register_pin
      rw [if_pos hq]
      unfold findPin
      exact List.find?_cons_of_pos _ (by simp [hq])
    · unfold findPin at h
      rw [List.find?_cons_of_neg _ (by simp [hq])] at h
      unfold esp32_ble_debugger_register_pin
      rw [if_neg hq]
      unfold findPin
      rw [List.find?_cons_of_neg _ (by simp [hq])]
      exact ih h

theorem countId_register (n : Nat) (cfg dir : String) (g : Option Nat)
    (ps : List DebugPin) :
    countId n (esp32_ble_debugger_register_pin n cfg dir g ps)
      = if countId n ps = 0 then 1 else countId n ps := by
  induction ps with
  | nil => simp [countId, esp32_ble_debugger_register_pin]
  | cons q rest ih =>
    by_cases hq : q.num = n
    · unfold esp32_ble_debugger_register_pin
      rw [if_pos hq]
      simp only [countId, List.filter_cons]
      simp [hq]
    · unfold esp32_ble_debugger_register_pin
      rw [if_neg hq]
      simp only [countId, List.filter_cons]
      simp only [countId] at ih
      simp [hq, ih]

/-! ## Claim theorems -/

/-- C9: registerSafePins is idempotent, and it only ever appends placeholder
entries, so every pin already present keeps every one of its fields and its
position. -/
theorem registerSafePins_idempotent_and_preserving (ps : List DebugPin) :
    registerSafePins (registerSafePins ps) = registerSafePins ps
    ∧ ∃ t, registerSafePins ps = ps ++ t := by
  constructor
  · exact foldl_seed_id SAFE_PINS (registerSafePins ps)
      (fun n hn => foldl_seed_all_present SAFE_PINS ps n hn)
  · exact foldl_seed_append SAFE_PINS ps

/-- C10: esp32_ble_debugger_probe_impl registers under the id
(if n < 100 then 100 else n) mod 256: the floor-raise to 100 applies only
below 100, ids of at least 100 are stored mod 256, and every requested id
in 256..355 lands on id n - 256, below 100, with config VIRTUAL. -/
theorem probe_impl_truncates_id (n pvar : Nat) (name : String)
    (ps : List DebugPin) :
    (∃ p, findPin (probeTargetId n)
            (esp32_ble_debugger_probe_impl n pvar name ps) = some p
          ∧ p.cfg = "VIRTUAL" ∧ p.dir = name ∧ p.ptr = some pvar
          ∧ p.hasPtr = true)
    ∧ (n < 100 → probeTargetId n = 100)
    ∧ (100 ≤ n → probeTargetId n = n % 256)
    ∧ (256 ≤ n → n ≤ 355 → probeTargetId n = n - 256 ∧ probeTargetId n < 100) := by
  refine ⟨?_, ?_, ?_, ?_⟩
  · rcases findPin_probeUpd (probeTargetId n) pvar name ps with
      ⟨p, hp, _, h2, h3, h4, h5⟩
    exact ⟨p, hp, h2, h3, h4, h5⟩
  · intro h
    unfold probeTargetId
    rw [if_pos h]
  · intro h
    unfold probeTargetId
    rw [if_neg (by omega)]
  · intro h1 h2
    unfold probeTargetId
    rw [if_neg (by omega)]
    omega

/-- C7 (amended): a registration call on a registry holding at most one pin
with the target id leaves exactly one such pin; a fresh id is appended with
exactly the supplied fields; an existing pin keeps config and direction
unless the supplied strings are non-empty and always gets the supplied
getter (including a cleared one), while its cached value and its
probe-pointer override are untouched. -/
theorem register_pin_unique_and_updates (n : Nat) (cfg dir : String)
    (g : Option Nat) (ps : List DebugPin) (h : countId n ps ≤ 1) :
    countId n (esp32_ble_debugger_register_pin n cfg dir g ps) = 1
    ∧ (findPin n ps = none →
        esp32_ble_debugger_register_pin n cfg dir g ps
          = ps ++ [{ num := n, cfg := cfg, dir := dir, getter := g,
                     cur := 0, hasCur := false, ptr := none, hasPtr := false }])
    ∧ (∀ p, findPin n ps = some p →
        findPin n (esp32_ble_debugger_register_pin n cfg dir g ps)
          = some { p with cfg := if cfg.length ≠ 0 then cfg else p.cfg,
                          dir := if dir.length ≠ 0 then dir else p.dir,
                          getter := g }) := by
  refine ⟨?_, register_pin_insert n cfg dir g ps,
          fun p hp => register_pin_update n cfg dir g ps p hp⟩
  rw [countId_register]
  split
  · rfl
  · omega

/-- C7 witness: a concrete registration on the empty registry. -/
theorem register_pin_unique_witness :
    countId 5 ([] : List DebugPin) ≤ 1
    ∧ countId 5 (esp32_ble_debugger_register_pin 5 "ANALOG" "IN" none []) = 1 :=
  ⟨by decide,
   (register_pin_unique_and_updates 5 "ANALOG" "IN" none [] (by decide)).1⟩

/-- C7 counterexample: after a probe installs a pointer override, a
registration that supplies no override (null getter, empty config and
direction) leaves the pointer override in place, and that override still
governs the resolved value (the environment stores 5 behind the pointer,
the pin has no valid cached value, and the read yields 5). -/
theorem register_pin_keeps_probe_override :
    esp32_ble_debugger_register_pin 100 "" "" none
        (esp32_ble_debugger_probe_impl 100 7 "x" [])
      = [{ num := 100, cfg := "VIRTUAL", dir := "x", getter := none,
           cur := 0, hasCur := false, ptr := some 7, hasPtr := true }]
    ∧ injectedValue envPtr
        { num := 100, cfg := "VIRTUAL", dir := "x", getter := none,
          cur := 0, hasCur := false, ptr := some 7, hasPtr := true } = some 5 := by
  exact ⟨by decide, rfl⟩

/-! ## Control channel -/

theorem clamp_bounds (ms : Nat) :
    ESP_LIVE_DBG_RATE_MIN ≤ set_rate_clamped ms
    ∧ set_rate_clamped ms ≤ ESP_LIVE_DBG_RATE_MAX := by
  simp only [set_rate_clamped, ESP_LIVE_DBG_RATE_MIN, ESP_LIVE_DBG_RATE_MAX]
  split_ifs <;> omega

theorem onwrite_json_rate (jp : String → Option JDoc) (r : Nat)
    (hjr : jp "\x7b\"rate\": 10\x7d" = some { rate := some 10, dbgInt := none }) :
    CtrlCB_onWrite jp "\x7b\"rate\": 10\x7d" r = 50 := by
  unfold CtrlCB_onWrite
  rw [if_neg (by decide), if_neg (by decide), hjr]
  rfl

theorem onwrite_ignores_unparsed (jp : String → Option JDoc) (r : Nat)
    (s : String)
    (hdig : s.toList.all (fun c => c.isDigit || isspaceChar c) = false)
    (hjn : jp s = none) : CtrlCB_onWrite jp s r = r := by
  unfold CtrlCB_onWrite
  by_cases hlen : s.length = 0
  · rw [if_pos hlen]
  · rw [if_neg hlen, if_neg (by rw [hdig]; exact Bool.false_ne_true), hjn]

theorem onwrite_ignores_keyless (jp : String → Option JDoc) (r : Nat)
    (s : String)
    (hdig : s.toList.all (fun c => c.isDigit || isspaceChar c) = false)
    (hjn : jp s = some { rate := none, dbgInt := none }) :
    CtrlCB_onWrite jp s r = r := by
  unfold CtrlCB_onWrite
  by_cases hlen : s.length = 0
  · rw [if_pos hlen]
  · rw [if_neg hlen, if_neg (by rw [hdig]; exact Bool.false_ne_true), hjn]

/-- C5: the control write handler sets the interval to clamp(300) = 300 on
input "300"; to the min bound 50 on a JSON body with rate 10; it leaves the
interval unchanged on "abc", "0" and the empty input; and every input that
is neither a digit string nor a JSON body carrying a rate or dbg_int member
leaves the interval unchanged (the handler returns the new interval and has
no error path). -/
theorem ctrl_channel_write_behaviour (jp : String → Option JDoc) (r : Nat)
    (hjr : jp "\x7b\"rate\": 10\x7d" = some { rate := some 10, dbgInt := none })
    (hja : jp "abc" = none) :
    CtrlCB_onWrite jp "300" r = 300
    ∧ CtrlCB_onWrite jp "\x7b\"rate\": 10\x7d" r = 50
    ∧ CtrlCB_onWrite jp "abc" r = r
    ∧ CtrlCB_onWrite jp "0" r = r
    ∧ CtrlCB_onWrite jp "" r = r
    ∧ (∀ s, s.toList.all (fun c => c.isDigit || isspaceChar c) = false →
        jp s = none → CtrlCB_onWrite jp s r = r)
    ∧ (∀ s, s.toList.all (fun c => c.isDigit || isspaceChar c) = false →
        jp s = some { rate := none, dbgInt := none } →
        CtrlCB_onWrite jp s r = r) := by
  refine ⟨rfl, onwrite_json_rate jp r hjr, ?_, rfl, rfl,
          fun s hdig hjn => onwrite_ignores_unparsed jp r s hdig hjn,
          fun s hdig hjn => onwrite_ignores_keyless jp r s hdig hjn⟩
  unfold CtrlCB_onWrite
  rw [if_neg (by decide), if_neg (by decide), hja]

/-- Concrete JSON collaborator used to instantiate the control theorems:
parses exactly the body with rate 10. -/
def jpW : String → Option JDoc := fun s =>
  if s = "\x7b\"rate\": 10\x7d" then some { rate := some 10, dbgInt := none }
  else none

/-- C5 witness: the handler under the concrete parser jpW. -/
theorem ctrl_channel_write_witness :
    jpW "\x7b\"rate\": 10\x7d" = some { rate := some 10, dbgInt := none }
    ∧ jpW "abc" = none
    ∧ CtrlCB_onWrite jpW "\x7b\"rate\": 10\x7d" 500 = 50 :=
  ⟨by decide, by decide,
   (ctrl_channel_write_behaviour jpW 500 (by decide) (by decide)).2.1⟩

/-- C6 (amended): set_rate_clamped always lands in
[ESP_LIVE_DBG_RATE_MIN, ESP_LIVE_DBG_RATE_MAX], and a control-channel write
keeps an in-range interval in range; esp32_ble_debugger_begin stores its
argument without clamping, so the invariant covers only the control
parser's mutations. -/
theorem rate_clamped_after_ctrl_writes (jp : String → Option JDoc)
    (s : String) (r : Nat)
    (h1 : ESP_LIVE_DBG_RATE_MIN ≤ r) (h2 : r ≤ ESP_LIVE_DBG_RATE_MAX) :
    (∀ ms, ESP_LIVE_DBG_RATE_MIN ≤ set_rate_clamped ms
        ∧ set_rate_clamped ms ≤ ESP_LIVE_DBG_RATE_MAX)
    ∧ ESP_LIVE_DBG_RATE_MIN ≤ CtrlCB_onWrite jp s r
    ∧ CtrlCB_onWrite jp s r ≤ ESP_LIVE_DBG_RATE_MAX := by
  refine ⟨clamp_bounds, ?_⟩
  unfold CtrlCB_onWrite
  split
  · exact ⟨h1, h2⟩
  · split
    · split
      · exact clamp_bounds _
      · exact ⟨h1, h2⟩
    · cases hj : jp s with
      | none => exact ⟨h1, h2⟩
      | some d =>
        cases hd : d.dbgInt with
        | some v => simp only [hd]; exact clamp_bounds _
        | none =>
          cases hr : d.rate with
          | some v => simp only [hd, hr]; exact clamp_bounds _
          | none => simp only [hd, hr]; exact ⟨h1, h2⟩

/-- C6 witness: a concrete in-range interval stays in range across a
write. -/
theorem rate_clamped_after_ctrl_writes_witness :
    ESP_LIVE_DBG_RATE_MIN ≤ 500 ∧ (500 : Nat) ≤ ESP_LIVE_DBG_RATE_MAX
    ∧ ESP_LIVE_DBG_RATE_MIN ≤ CtrlCB_onWrite jpW "77" 500
    ∧ CtrlCB_onWrite jpW "77" 500 ≤ ESP_LIVE_DBG_RATE_MAX :=
  ⟨by decide, by decide,
   (rate_clamped_after_ctrl_writes jpW "77" 500 (by decide) (by decide)).2⟩

/-- C6 counterexample: esp32_ble_debugger_begin(10) stores the interval 10,
strictly below ESP_LIVE_DBG_RATE_MIN = 50, so the clamping invariant does
not hold after this public operation. -/
theorem begin_stores_rate_unclamped :
    esp32_ble_debugger_begin_rate 10 = 10 ∧ 10 < ESP_LIVE_DBG_RATE_MIN :=
  ⟨rfl, by decide⟩

/-! ## Value resolver -/

theorem analog_bounds (env : Env) (p : DebugPin) (v : Rat)
    (hcfg : p.cfg = "ANALOG") (hinj : injectedValue env p = some v) :
    ∃ a, (jsonAddPin env p).analog = some a ∧ 0 ≤ a ∧ a ≤ 4095 := by
  unfold jsonAddPin
  rw [hinj]
  simp only [hcfg]
  rw [if_neg (by decide)]
  rw [if_neg (by simp)]
  refine ⟨_, rfl, ?_⟩
  constructor <;> split_ifs <;> omega

/-- C8: on an analog pin every supplied raw value is truncated toward zero
and yields an encoded value within 0..4095; the DAC output pin 25 with raw
value 10 encodes 160 (rescale by 16, within range); pin 2 (no DAC
classification) with raw value 300 encodes 300 unchanged. -/
theorem jsonAddPin_analog_encoding :
    (∀ env p v, p.cfg = "ANALOG" → injectedValue env p = some v →
      ∃ a, (jsonAddPin env p).analog = some a ∧ 0 ≤ a ∧ a ≤ 4095)
    ∧ (jsonAddPin envZero
        { num := 25, cfg := "ANALOG", dir := "OUT", getter := none,
          cur := 10, hasCur := true, ptr := none, hasPtr := false }).analog
        = some 160
    ∧ (jsonAddPin envZero
        { num := 2, cfg := "ANALOG", dir := "OUT", getter := none,
          cur := 300, hasCur := true, ptr := none, hasPtr := false }).analog
        = some 300 :=
  ⟨fun env p v hcfg hinj => analog_bounds env p v hcfg hinj,
   by decide, by decide⟩

/-! ## Packet assembler -/

theorem fillFrame_cons (esize : DebugPin → Nat) (limit m : Nat)
    (p : DebugPin) (rest : List DebugPin) :
    fillFrame esize limit m (p :: rest)
      = if limit ≤ m + esize p then ([], p :: rest)
        else (p :: (fillFrame esize limit (m + esize p) rest).1,
              (fillFrame esize limit (m + esize p) rest).2) := rfl

theorem sendPktLoop_cons (esize : DebugPin → Nat) (hdr limit fuel seq : Nat)
    (p : DebugPin) (rest : List DebugPin) :
    sendPktLoop esize hdr limit (fuel + 1) seq (p :: rest)
      = ({ seq := seq,
           last := (fillFrame esize limit hdr (p :: rest)).2.isEmpty,
           pinsF := (fillFrame esize limit hdr (p :: rest)).1 }
           :: (sendPktLoop esize hdr limit fuel (seq + 1)
                (fillFrame esize limit hdr (p :: rest)).2).1,
         (sendPktLoop esize hdr limit fuel (seq + 1)
            (fillFrame esize limit hdr (p :: rest)).2).2) := rfl

theorem fillFrame_split (esize : DebugPin → Nat) (limit : Nat)
    (l : List DebugPin) :
    ∀ m, (fillFrame esize limit m l).1 ++ (fillFrame esize limit m l).2 = l := by
  induction l with
  | nil => intro m; rfl
  | cons p rest ih =>
    intro m
    unfold fillFrame
    split
    · rfl
    · dsimp only
      rw [List.cons_append, ih (m + esize p)]

theorem fillFrame_rem_ne (esize : DebugPin → Nat) (limit : Nat)
    (l : List DebugPin) :
    ∀ m, l ≠ [] → limit ≤ m + (l.map esize).sum →
      (fillFrame esize limit m l).2 ≠ [] := by
  induction l with
  | nil => intro m h; exact absurd rfl h
  | cons p rest ih =>
    intro m _ htot
    unfold fillFrame
    split
    · simp
    · next hlt =>
      dsimp only
      cases rest with
      | nil =>
        exfalso
        simp only [List.map_cons, List.map_nil, List.sum_cons,
                   List.sum_nil] at htot
        omega
      | cons q t =>
        apply ih (m + esize p) (by simp)
        simp only [List.map_cons, List.sum_cons] at htot ⊢
        omega

theorem sendPktLoop_ok (esize : DebugPin → Nat) (hdr limit : Nat) :
    ∀ fuel seq l, (∀ p ∈ l, hdr + esize p < limit) → l.length ≤ fuel →
      (sendPktLoop esize hdr limit fuel seq l).2 = true
      ∧ ((sendPktLoop esize hdr limit fuel seq l).1.map Frame.pinsF).flatten = l
      ∧ (sendPktLoop esize hdr limit fuel seq l).1.map Frame.seq
          = List.range' seq (sendPktLoop esize hdr limit fuel seq l).1.length
      ∧ (l = [] → (sendPktLoop esize hdr limit fuel seq l).1 = [])
      ∧ (l ≠ [] → (sendPktLoop esize hdr limit fuel seq l).1.map Frame.last
          = List.replicate
              ((sendPktLoop esize hdr limit fuel seq l).1.length - 1) false
            ++ [true]) := by
  intro fuel
  induction fuel with
  | zero =>
    intro seq l hfit hlen
    have hl : l = [] := List.length_eq_zero.mp (Nat.le_zero.mp hlen)
    subst hl
    exact ⟨rfl, rfl, rfl, fun _ => rfl, fun h => absurd rfl h⟩
  | succ f ih =>
    intro seq l hfit hlen
    cases l with
    | nil => exact ⟨rfl, rfl, rfl, fun _ => rfl, fun h => absurd rfl h⟩
    | cons p rest =>
      have hp : hdr + esize p < limit := hfit p (List.mem_cons_self p rest)
      have hfc := fillFrame_cons esize limit hdr p rest
      rw [if_neg (by omega)] at hfc
      have hsplit : (fillFrame esize limit (hdr + esize p) rest).1
          ++ (fillFrame esize limit (hdr + esize p) rest).2 = rest :=
        fillFrame_split esize limit rest (hdr + esize p)
      have hremfit : ∀ q ∈ (fillFrame esize limit (hdr + esize p) rest).2,
          hdr + esize q < limit := by
        intro q hq
        refine hfit q (List.mem_cons_of_mem p ?_)
        rw [← hsplit]
        exact List.mem_append.mpr (Or.inr hq)
      have hremfuel : (fillFrame esize limit (hdr + esize p) rest).2.length
          ≤ f := by
        have hc := congrArg List.length hsplit
        rw [List.length_append] at hc
        simp only [List.length_cons] at hlen
        omega
      obtain ⟨htrue, hflat, hseq, hnil, hlast⟩ :=
        ih (seq + 1) (fillFrame esize limit (hdr + esize p) rest).2
          hremfit hremfuel
      rw [sendPktLoop_cons, hfc]
      dsimp only
      refine ⟨htrue, ?_, ?_, ?_, ?_⟩
      · rw [List.map_cons, List.flatten_cons, hflat]
        dsimp only
        rw [List.cons_append, hsplit]
      · rw [List.map_cons]
        dsimp only
        rw [hseq, List.length_cons, List.range'_succ]
      · intro h
        exact absurd h (List.cons_ne_nil p rest)
      · intro _
        by_cases hre : (fillFrame esize limit (hdr + esize p) rest).2 = []
        · rw [hnil hre, hre]
          rfl
        · have hmap := hlast hre
          have htne : (sendPktLoop esize hdr limit f (seq + 1)
              (fillFrame esize limit (hdr + esize p) rest).2).1 ≠ [] := by
            intro h0
            rw [h0] at hmap
            simp at hmap
          obtain ⟨k, hk⟩ := Nat.exists_eq_succ_of_ne_zero
            (fun h0 => htne (List.length_eq_zero.mp h0))
          rw [List.map_cons]
          dsimp only
          rw [hmap, List.length_cons, hk]
          have hie : (fillFrame esize limit
              (hdr + esize p) rest).2.isEmpty = false := by
            cases hcc : (fillFrame esize limit (hdr + esize p) rest).2 with
            | nil => exact absurd hcc hre
            | cons a b => rfl
          rw [hie]
          simp [List.replicate_succ]

theorem sendPktLoop_stuck (esize : DebugPin → Nat) (hdr limit : Nat)
    (p : DebugPin) (rest : List DebugPin) (h : limit ≤ hdr + esize p) :
    ∀ fuel seq, (sendPktLoop esize hdr limit fuel seq (p :: rest)).2 = false
      ∧ ∀ fr ∈ (sendPktLoop esize hdr limit fuel seq (p :: rest)).1,
          fr.pinsF = [] ∧ fr.last = false := by
  intro fuel
  induction fuel with
  | zero =>
    intro seq
    refine ⟨rfl, ?_⟩
    intro fr hfr
    exact absurd hfr (List.not_mem_nil fr)
  | succ f ih =>
    intro seq
    have hfc := fillFrame_cons esize limit hdr p rest
    rw [if_pos h] at hfc
    rw [sendPktLoop_cons, hfc]
    dsimp only
    obtain ⟨h1, h2⟩ := ih (seq + 1)
    refine ⟨h1, ?_⟩
    intro fr hfr
    rcases List.mem_cons.mp hfr with hfr | hfr
    · subst hfr
      exact ⟨rfl, rfl⟩
    · exact h2 fr hfr

/-- C1 (amended): when the full serialization reaches or exceeds the chunk
limit, the header alone fits below the limit, every single entry fits below
the limit after the header, and the outer loop may run once per pin, a
sendPkt invocation completes with at least two frames, sequence numbers
exactly 0..k in emission order, the last flag on the final frame only, and
the concatenation of the frames' pin lists equal to the registry. -/
theorem sendPkt_chunking (esize : DebugPin → Nat) (hdr limit fuel : Nat)
    (ps : List DebugPin)
    (hfit : ∀ p ∈ ps, hdr + esize p < limit)
    (hhdr : hdr < limit)
    (hover : limit ≤ docMeasure esize hdr ps)
    (hfuel : ps.length ≤ fuel) :
    (sendPkt esize hdr limit fuel ps).2 = true
    ∧ 2 ≤ (sendPkt esize hdr limit fuel ps).1.length
    ∧ (sendPkt esize hdr limit fuel ps).1.map Frame.seq
        = List.range ((sendPkt esize hdr limit fuel ps).1.length)
    ∧ (sendPkt esize hdr limit fuel ps).1.map Frame.last
        = List.replicate ((sendPkt esize hdr limit fuel ps).1.length - 1) false
          ++ [true]
    ∧ ((sendPkt esize hdr limit fuel ps).1.map Frame.pinsF).flatten = ps := by
  have hne : ps ≠ [] := by
    intro h
    subst h
    unfold docMeasure at hover
    simp at hover
    omega
  obtain ⟨flag, hflat, hseqm, _, hlastm⟩ :=
    sendPktLoop_ok esize hdr limit fuel 0 ps hfit hfuel
  refine ⟨flag, ?_, by rw [List.range_eq_range']; exact hseqm,
          hlastm hne, hflat⟩
  cases ps with
  | nil => exact absurd rfl hne
  | cons p rest =>
    cases fuel with
    | zero => simp at hfuel
    | succ f =>
      have hp : hdr + esize p < limit := hfit p (List.mem_cons_self p rest)
      have hfc := fillFrame_cons esize limit hdr p rest
      rw [if_neg (by omega)] at hfc
      have hremne : (fillFrame esize limit (hdr + esize p) rest).2 ≠ [] := by
        have h0 := fillFrame_rem_ne esize limit (p :: rest) hdr
          (List.cons_ne_nil p rest)
          (by unfold docMeasure at hover; exact hover)
        rw [hfc] at h0
        exact h0
      have hsplit : (fillFrame esize limit (hdr + esize p) rest).1
          ++ (fillFrame esize limit (hdr + esize p) rest).2 = rest :=
        fillFrame_split esize limit rest (hdr + esize p)
      have hremfit : ∀ q ∈ (fillFrame esize limit (hdr + esize p) rest).2,
          hdr + esize q < limit := by
        intro q hq
        refine hfit q (List.mem_cons_of_mem p ?_)
        rw [← hsplit]
        exact List.mem_append.mpr (Or.inr hq)
      have hremfuel : (fillFrame esize limit (hdr + esize p) rest).2.length
          ≤ f := by
        have hc := congrArg List.length hsplit
        rw [List.length_append] at hc
        simp only [List.length_cons] at hfuel
        omega
      obtain ⟨_, _, _, _, hlast2⟩ :=
        sendPktLoop_ok esize hdr limit f (0 + 1)
          (fillFrame esize limit (hdr + esize p) rest).2 hremfit hremfuel
      have htne : (sendPktLoop esize hdr limit f (0 + 1)
          (fillFrame esize limit (hdr + esize p) rest).2).1 ≠ [] := by
        intro h0
        have hm := hlast2 hremne
        rw [h0] at hm
        simp at hm
      unfold sendPkt
      rw [sendPktLoop_cons, hfc]
      dsimp only
      rw [List.length_cons]
      have hpos := List.length_pos.mpr htne
      omega

/-- Concrete registry of three placeholder pins whose entries measure 100
bytes each behind an 80-byte header with the 240-byte chunk limit: total
measure 380 forces splitting. -/
def threePins : List DebugPin :=
  [placeholderPin 2, placeholderPin 12, placeholderPin 13]

/-- C1 witness: the three-pin registry splits into more than one frame. -/
theorem sendPkt_chunking_witness :
    (∀ p ∈ threePins, 80 + (fun _ => (100 : Nat)) p < 240)
    ∧ 80 < 240
    ∧ 240 ≤ docMeasure (fun _ => 100) 80 threePins
    ∧ threePins.length ≤ 3
    ∧ 2 ≤ (sendPkt (fun _ => 100) 80 240 3 threePins).1.length :=
  ⟨by decide, by decide, by decide, by decide,
   (sendPkt_chunking (fun _ => 100) 80 240 3 threePins
     (by decide) (by decide) (by decide) (by decide)).2.1⟩

/-- Registry entry whose serialized entry alone reaches the chunk limit
(an entry can carry an arbitrarily long config string). -/
def pinLong : DebugPin :=
  { num := 2, cfg := "ANALOG", dir := "OUT", getter := none,
    cur := 0, hasCur := false, ptr := none, hasPtr := false }

/-- C1 counterexample: a one-pin registry whose full serialization (80 + 170
= 250) exceeds the 240-byte ceiling, but whose single entry also reaches
the ceiling on its own: sendPkt never completes, and with two loop
iterations it has emitted two frames that are empty and not final, so no
invocation yields frames concatenating to the registry with a final
frame. -/
theorem sendPkt_chunking_oversized_entry :
    BLE_CHUNK_LIMIT ≤ docMeasure (fun _ => 170) 80 [pinLong]
    ∧ sendPktDiverges (fun _ => 170) 80 BLE_CHUNK_LIMIT [pinLong]
    ∧ (sendPkt (fun _ => 170) 80 BLE_CHUNK_LIMIT 2 [pinLong]).1
        = [{ seq := 0, last := false, pinsF := [] },
           { seq := 1, last := false, pinsF := [] }] := by
  refine ⟨by decide, ?_, by decide⟩
  intro fuel
  exact (sendPktLoop_stuck (fun _ => 170) 80 BLE_CHUNK_LIMIT pinLong []
    (by decide) fuel 0).1

/-- Registry entry used for the C2 run: its entry cost 200 reaches the
240-byte limit behind the 80-byte header on its own. -/
def pinLong2 : DebugPin :=
  { num := 12, cfg := "ANALOG", dir := "IN", getter := none,
    cur := 0, hasCur := false, ptr := none, hasPtr := false }

/-- C2: an entry that alone reaches the chunk limit is never emitted at
all: the inner loop removes it from every frame and rewinds the cursor, so
sendPkt loops forever; every frame it emits carries an empty pin list and
last = false, and the invocation never completes (three loop iterations
shown concretely). -/
theorem sendPkt_oversized_entry_never_sent :
    BLE_CHUNK_LIMIT ≤ 80 + 200
    ∧ sendPktDiverges (fun _ => 200) 80 BLE_CHUNK_LIMIT [pinLong2]
    ∧ (sendPkt (fun _ => 200) 80 BLE_CHUNK_LIMIT 3 [pinLong2]).1
        = [{ seq := 0, last := false, pinsF := [] },
           { seq := 1, last := false, pinsF := [] },
           { seq := 2, last := false, pinsF := [] }] := by
  refine ⟨by decide, ?_, by decide⟩
  intro fuel
  exact (sendPktLoop_stuck (fun _ => 200) 80 BLE_CHUNK_LIMIT pinLong2 []
    (by decide) fuel 0).1

/-- Registry entry used for the C3 run: entry cost 999 with a 40-byte
header. -/
def pinLong3 : DebugPin :=
  { num := 13, cfg := "ANALOG", dir := "IN", getter := none,
    cur := 0, hasCur := false, ptr := none, hasPtr := false }

/-- C3: sendPkt does not terminate on every finite registry: on a registry
holding one pin whose serialized entry alone reaches the chunk limit, the
outer loop never exits regardless of how many iterations it is granted. -/
theorem sendPkt_nonterminating_on_oversized :
    sendPktDiverges (fun _ => 999) 40 BLE_CHUNK_LIMIT [pinLong3] := by
  intro fuel
  exact (sendPktLoop_stuck (fun _ => 999) 40 BLE_CHUNK_LIMIT pinLong3 []
    (by decide) fuel 0).1

/-- C4 (amended): with zero registered pins the outer while loop never
runs, so a sendPkt invocation completes having emitted no frame at all. -/
theorem sendPkt_empty_registry (esize : DebugPin → Nat) (hdr limit fuel : Nat) :
    sendPkt esize hdr limit fuel ([] : List DebugPin) = ([], true) := by
  cases fuel <;> rfl

/-- C4 counterexample: at the empty registry a completed sendPkt invocation
emits zero frames, not one final header-only frame. -/
theorem sendPkt_empty_registry_no_frame :
    sendPkt (fun _ => 100) 80 BLE_CHUNK_LIMIT 3 ([] : List DebugPin) = ([], true)
    ∧ (sendPkt (fun _ => 100) 80 BLE_CHUNK_LIMIT 3 ([] : List DebugPin)).1.length
        = 0 :=
  ⟨rfl, rfl⟩

end ESP32Dbg
